import Mathlib

/-!
Verification of the `copy-bench` benchmark harness (`src/main.go`).

The harness seeds an embedded key-value store with a fixed dataset, then
measures partial-range scan latency in three phases (warmup, isolated,
concurrent with a full snapshot copy), coordinating one scan worker at a
time through a single unbuffered channel.

The embedding below translates `main.go` into pure Lean definitions:

* keys are byte lists produced by `binary.BigEndian.PutUint64`
  (`beBytes` / `putUint64be`);
* the storage engine's bucket is modelled, per the engine's documented
  contract (a map whose forward cursor yields keys in ascending byte
  order, with `Put` inserting or replacing a key), as an association
  list kept sorted by `bytesCmp`, the byte-order comparison of Go's
  `bytes.Compare`;
* `seed`, the scan body of `iterate`, and `dbcopy` become pure functions,
  with per-transaction failure of `db.Update` / `tx.Copy` represented by
  explicit failure oracles (a committed transaction applies its writes,
  a failed one leaves the store unchanged);
* the goroutine/channel structure of `main` and `iterate` becomes a small
  labelled transition system (`BState`, `next`) whose interleavings
  over-approximate the Go scheduler, with the unbuffered-channel
  rendezvous and the `select`/`default` semantics modelled exactly.
-/

namespace CopyBench

/-- Constant `batchSize = 10000` from `main.go` line 17. -/
def batchSize : Nat := 10000

/-- Constant `itemCount = 4000000` from `main.go` line 18. -/
def itemCount : Nat := 4000000

/-- Constant `keySize = 8` from `main.go` line 19. -/
def keySize : Nat := 8

/-- Constant `valueSize = 1024` from `main.go` line 20. -/
def valueSize : Nat := 1024

/-- Constant `iteratePct = 0.2` from `main.go` line 21.  Go evaluates
constant expressions over untyped constants with exact arithmetic, so the
float constant is represented exactly as a rational. -/
def iteratePct : ℚ := 0.2

/-- Big-endian byte string of the low `8*n` bits of `x`: byte `j` (from the
most significant end) is `x / 256 ^ (n-1-j) % 256`.  `beBytes 8` is the
effect of `binary.BigEndian.PutUint64` on a fresh 8-byte slice. -/
def beBytes : Nat → Nat → List Nat
  | 0, _ => []
  | n + 1, x => x / 256 ^ n % 256 :: beBytes n x

/-- `binary.BigEndian.PutUint64(k, uint64(x))` as used at `main.go` lines 99
and 137: the 8-byte big-endian encoding of `x` modulo `2^64`. -/
def putUint64be (x : Nat) : List Nat := beBytes 8 x

/-- Numeric value denoted by a big-endian byte string (most significant
byte first). -/
def decodeBE : List Nat → Nat
  | [] => 0
  | b :: l => b * 256 ^ l.length + decodeBE l

/-- Go's `bytes.Compare`: lexicographic comparison of byte strings, a
proper prefix comparing less than the longer string. -/
def bytesCmp : List Nat → List Nat → Ordering
  | [], [] => .eq
  | [], _ :: _ => .lt
  | _ :: _, [] => .gt
  | a :: as, b :: bs =>
    match compare a b with
    | .eq => bytesCmp as bs
    | o => o

theorem beBytes_length (n x : Nat) : (beBytes n x).length = n := by
  induction n generalizing x with
  | zero => rfl
  | succ n ih => simp [beBytes, ih]

theorem beBytes_mem_lt (n x : Nat) : ∀ b ∈ beBytes n x, b < 256 := by
  induction n generalizing x with
  | zero => intro b hb; simp [beBytes] at hb
  | succ n ih =>
    intro b hb
    simp only [beBytes, List.mem_cons] at hb
    rcases hb with h | h
    · exact h ▸ Nat.mod_lt _ (by norm_num)
    · exact ih x b h

theorem decodeBE_beBytes (n x : Nat) : decodeBE (beBytes n x) = x % 256 ^ n := by
  induction n generalizing x with
  | zero => simp [beBytes, decodeBE, Nat.mod_one]
  | succ n ih =>
    simp only [beBytes, decodeBE, beBytes_length, ih]
    rw [pow_succ, Nat.mod_mul]
    ring

theorem decodeBE_lt (l : List Nat) (h : ∀ b ∈ l, b < 256) :
    decodeBE l < 256 ^ l.length := by
  induction l with
  | nil => simp [decodeBE]
  | cons b t ih =>
    have hb : b < 256 := h b (List.mem_cons_self b t)
    have ht : decodeBE t < 256 ^ t.length := ih fun x hx => h x (List.mem_cons_of_mem b hx)
    have : b * 256 ^ t.length + decodeBE t < (b + 1) * 256 ^ t.length := by
      have := Nat.pos_pow_of_pos t.length (by norm_num : 0 < 256)
      nlinarith
    calc decodeBE (b :: t) = b * 256 ^ t.length + decodeBE t := rfl
      _ < (b + 1) * 256 ^ t.length := this
      _ ≤ 256 * 256 ^ t.length := Nat.mul_le_mul_right _ hb
      _ = 256 ^ (b :: t).length := by rw [List.length_cons, pow_succ]; ring

theorem bytesCmp_eq_compare : ∀ (a b : List Nat), a.length = b.length →
    (∀ x ∈ a, x < 256) → (∀ x ∈ b, x < 256) →
    bytesCmp a b = compare (decodeBE a) (decodeBE b) := by
  intro a
  induction a with
  | nil =>
    intro b hl _ _
    cases b with
    | nil =>
      simp only [bytesCmp, decodeBE]
      exact (Nat.compare_eq_eq.mpr rfl).symm
    | cons y ys => simp at hl
  | cons x xs ih =>
    intro b hl ha hb
    cases b with
    | nil => simp at hl
    | cons y ys =>
      have hlen : xs.length = ys.length := by simpa using hl
      have hx : x < 256 := ha x (List.mem_cons_self x xs)
      have hy : y < 256 := hb y (List.mem_cons_self y ys)
      have hxs : ∀ z ∈ xs, z < 256 := fun z hz => ha z (List.mem_cons_of_mem x hz)
      have hys : ∀ z ∈ ys, z < 256 := fun z hz => hb z (List.mem_cons_of_mem y hz)
      have hdx : decodeBE xs < 256 ^ xs.length := decodeBE_lt xs hxs
      have hdy : decodeBE ys < 256 ^ ys.length := decodeBE_lt ys hys
      rcases Nat.lt_trichotomy x y with hxy | hxy | hxy
      · have h1 : compare x y = Ordering.lt := Nat.compare_eq_lt.mpr hxy
        have h2 : decodeBE (x :: xs) < decodeBE (y :: ys) := by
          simp only [decodeBE, hlen]
          have hdx' : decodeBE xs < 256 ^ ys.length := hlen ▸ hdx
          calc x * 256 ^ ys.length + decodeBE xs
              < x * 256 ^ ys.length + 256 ^ ys.length := by omega
            _ = (x + 1) * 256 ^ ys.length := by ring
            _ ≤ y * 256 ^ ys.length := Nat.mul_le_mul_right _ hxy
            _ ≤ y * 256 ^ ys.length + decodeBE ys := Nat.le_add_right _ _
        simp [bytesCmp, h1, Nat.compare_eq_lt.mpr h2]
      · subst hxy
        have h1 : compare x x = Ordering.eq := by simp [Nat.compare_eq_eq]
        have h2 : bytesCmp xs ys = compare (decodeBE xs) (decodeBE ys) :=
          ih ys hlen hxs hys
        have h3 : compare (decodeBE (x :: xs)) (decodeBE (x :: ys))
            = compare (decodeBE xs) (decodeBE ys) := by
          simp only [decodeBE, hlen]
          rcases Nat.lt_trichotomy (decodeBE xs) (decodeBE ys) with h | h | h
          · rw [Nat.compare_eq_lt.mpr h, Nat.compare_eq_lt.mpr (by omega)]
          · rw [h, Nat.compare_eq_eq.mpr rfl, Nat.compare_eq_eq.mpr rfl]
          · rw [Nat.compare_eq_gt.mpr h, Nat.compare_eq_gt.mpr (by omega)]
        simp [bytesCmp, h1, h2, h3]
      · have h1 : compare x y = Ordering.gt := Nat.compare_eq_gt.mpr hxy
        have h2 : decodeBE (y :: ys) < decodeBE (x :: xs) := by
          simp only [decodeBE, hlen]
          calc y * 256 ^ ys.length + decodeBE ys
              < y * 256 ^ ys.length + 256 ^ ys.length := by
                have := hdy; omega
            _ = (y + 1) * 256 ^ ys.length := by ring
            _ ≤ x * 256 ^ ys.length := Nat.mul_le_mul_right _ hxy
            _ ≤ x * 256 ^ ys.length + decodeBE xs := Nat.le_add_right _ _
        simp [bytesCmp, h1, Nat.compare_eq_gt.mpr h2]

theorem putUint64be_cmp (x y : Nat) (hx : x < 2 ^ 64) (hy : y < 2 ^ 64) :
    bytesCmp (putUint64be x) (putUint64be y) = compare x y := by
  have h256 : (256 : Nat) ^ 8 = 2 ^ 64 := by norm_num
  have hdx : decodeBE (beBytes 8 x) = x := by
    rw [decodeBE_beBytes, h256, Nat.mod_eq_of_lt hx]
  have hdy : decodeBE (beBytes 8 y) = y := by
    rw [decodeBE_beBytes, h256, Nat.mod_eq_of_lt hy]
  have := bytesCmp_eq_compare (beBytes 8 x) (beBytes 8 y)
    (by rw [beBytes_length, beBytes_length]) (beBytes_mem_lt 8 x) (beBytes_mem_lt 8 y)
  rw [putUint64be, putUint64be, this, hdx, hdy]

/-- A bucket of the storage engine: an association list of (key, value)
byte strings kept sorted in strictly ascending `bytesCmp` order, the
order in which the engine's forward cursor yields its entries. -/
abbrev Bucket := List (List Nat × List Nat)

/-- A database is the optional "root" bucket: `none` when the bucket has
never been created (`tx.Bucket([]byte("root"))` returns `nil`), `some`
once `CreateBucketIfNotExists` has run. -/
abbrev DB := Option Bucket

/-- `b.Put(k, v)`: insert `k` at its sorted position, or replace the
value if `k` is already present. -/
def bucketPut (k v : List Nat) : Bucket → Bucket
  | [] => [(k, v)]
  | (k', v') :: rest =>
    match bytesCmp k k' with
    | .lt => (k, v) :: (k', v') :: rest
    | .eq => (k, v) :: rest
    | .gt => (k', v') :: bucketPut k v rest

/-- The fixed record payload `make([]byte, valueSize)` from `main.go`
line 98: 1024 zero bytes. -/
def zeroValue : List Nat := List.replicate valueSize 0

/-- The bucket holding records for the contiguous key range `[0, n)`:
key `i` is the 8-byte big-endian encoding of `i`, each value the fixed
zero payload. -/
def storeOf (n : Nat) : Bucket :=
  (List.range n).map fun i => (putUint64be i, zeroValue)

/-- The inner loop of one seeding batch (`main.go` lines 97-104): perform
`n` consecutive `Put`s, keying each by the running counter `count` and
incrementing it.  Returns the updated bucket and counter. -/
def putN : Nat → Nat → Bucket → Bucket × Nat
  | 0, count, bkt => (bkt, count)
  | n + 1, count, bkt =>
    putN n (count + 1) (bucketPut (putUint64be count) zeroValue bkt)

/-- Outcome of the seeder: final database, final `count`, and the error
returned (if any). -/
structure SeedOut where
  db : DB
  count : Nat
  err : Option String
  deriving DecidableEq, Repr

/-- The batch loop of `seed` (`main.go` lines 90-114):
`for i := 0; i < M; i += B` runs one read-write transaction per batch.
`fail b` is the outcome bolt reports for batch `b`'s `db.Update` call:
`some e` means the transaction fails and rolls back (store unchanged,
error returned immediately by `seed`); `none` means it commits
`CreateBucketIfNotExists` plus `B` `Put`s.  The Go `count` variable may
retain increments from inside a rolled-back transaction, but `seed`
returns at once, so the model keeps the pre-batch count on failure
without loss.  `fuel` bounds the number of
loop iterations; callers pass `fuel = M`, which suffices since `i`
advances by `B ≥ 1` each iteration. -/
def seedLoop (M B : Nat) (fail : Nat → Option String) :
    Nat → Nat → Nat → DB → SeedOut
  | 0, _, count, db => ⟨db, count, none⟩
  | fuel + 1, i, count, db =>
    if i < M then
      match fail (i / B) with
      | some e => ⟨db, count, some e⟩
      | none =>
        let r := putN B count (db.getD [])
        seedLoop M B fail fuel (i + B) r.2 (some r.1)
    else ⟨db, count, none⟩

/-- `seed` generalised over the two constants (`main.go` lines 85-123):
run the batch loop, then check `count != itemCount` and report
"invalid insert count" on mismatch. -/
def seedG (M B : Nat) (fail : Nat → Option String) (db : DB) : SeedOut :=
  let r := seedLoop M B fail M 0 0 db
  match r.err with
  | some _ => r
  | none => if r.count = M then r else ⟨r.db, r.count, some "invalid insert count"⟩

/-- `seed` from `main.go` lines 85-123, at the program's constants. -/
def seed (fail : Nat → Option String) (db : DB) : SeedOut :=
  seedG itemCount batchSize fail db

theorem bucketPut_append (k v : List Nat) :
    ∀ bkt : Bucket, (∀ kv ∈ bkt, bytesCmp k kv.1 = .gt) →
    bucketPut k v bkt = bkt ++ [(k, v)] := by
  intro bkt
  induction bkt with
  | nil => intro _; rfl
  | cons hd tl ih =>
    intro h
    have hhd : bytesCmp k hd.1 = .gt := h hd (List.mem_cons_self hd tl)
    obtain ⟨k', v'⟩ := hd
    simp only [bucketPut, hhd]
    rw [ih fun kv hkv => h kv (List.mem_cons_of_mem _ hkv)]
    rfl

theorem putN_storeOf : ∀ B c : Nat, c + B ≤ 2 ^ 64 →
    putN B c (storeOf c) = (storeOf (c + B), c + B) := by
  intro B
  induction B with
  | zero => intro c _; simp [putN]
  | succ B ih =>
    intro c hc
    have hstep : bucketPut (putUint64be c) zeroValue (storeOf c)
        = storeOf (c + 1) := by
      rw [bucketPut_append]
      · rw [storeOf, storeOf, List.range_succ, List.map_append]
        simp
      · intro kv hkv
        rw [storeOf] at hkv
        obtain ⟨i, hi, rfl⟩ := List.mem_map.mp hkv
        have hiC : i < c := List.mem_range.mp hi
        rw [putUint64be_cmp c i (by omega) (by omega)]
        exact Nat.compare_eq_gt.mpr hiC
    have : c + 1 + B = c + (B + 1) := by omega
    rw [putN, hstep, ih (c + 1) (by omega), this]

/-- Once the loop index has reached `M`, the loop exits immediately with
no error, leaving database and count untouched. -/
theorem seedLoop_done (M B : Nat) (fail : Nat → Option String)
    (fuel i count : Nat) (db : DB) (h : ¬ i < M) :
    seedLoop M B fail fuel i count db = ⟨db, count, none⟩ := by
  cases fuel with
  | zero => rfl
  | succ fuel => simp [seedLoop, h]

/-- A run of the batch loop in which no reached batch fails builds the
full store: from loop index `i` (a multiple of `B`, with the store
holding exactly keys `[0, i)`) it ends with keys `[0, M)`, count `M`,
and no error. -/
theorem seedLoop_nofail (M B : Nat) (hB : 1 ≤ B) (hBM : B ∣ M)
    (hM : M ≤ 2 ^ 64) :
    ∀ fuel i db, B ∣ i → i < M → M ≤ i + fuel → db.getD [] = storeOf i →
    seedLoop M B (fun _ => none) fuel i i db = ⟨some (storeOf M), M, none⟩ := by
  intro fuel
  induction fuel with
  | zero => intro i db _ hiM hMi _; omega
  | succ fuel ih =>
    intro i db hBi hiM hMi hdb
    have hiB : i + B ≤ M := by
      have h1 : B ∣ M - i := Nat.dvd_sub' hBM hBi
      have h2 : B ≤ M - i := Nat.le_of_dvd (by omega) h1
      omega
    simp only [seedLoop, if_pos hiM, hdb]
    rw [putN_storeOf B i (by omega)]
    rcases Nat.lt_or_ge (i + B) M with h | h
    · exact ih (i + B) (some (storeOf (i + B))) (Nat.dvd_add hBi dvd_rfl) h
        (by omega) (by simp)
    · have : i + B = M := by omega
      rw [seedLoop_done M B _ fuel (i + B) (i + B) _ (by omega), this]

/-- If a run of the batch loop from a multiple-of-`B` index returns no
error, it built the full store (the contrapositive: any failed batch
surfaces as an error). -/
theorem seedLoop_ok (M B : Nat) (fail : Nat → Option String) (hB : 1 ≤ B)
    (hBM : B ∣ M) (hM : M ≤ 2 ^ 64) :
    ∀ fuel i db, B ∣ i → i < M → M ≤ i + fuel → db.getD [] = storeOf i →
    (seedLoop M B fail fuel i i db).err = none →
    seedLoop M B fail fuel i i db = ⟨some (storeOf M), M, none⟩ := by
  intro fuel
  induction fuel with
  | zero => intro i db _ hiM hMi _ _; omega
  | succ fuel ih =>
    intro i db hBi hiM hMi hdb herr
    have hiB : i + B ≤ M := by
      have h1 : B ∣ M - i := Nat.dvd_sub' hBM hBi
      have h2 : B ≤ M - i := Nat.le_of_dvd (by omega) h1
      omega
    rcases hfb : fail (i / B) with _ | e
    · simp only [seedLoop, if_pos hiM, hfb, hdb] at herr ⊢
      rw [putN_storeOf B i (by omega)] at herr ⊢
      rcases Nat.lt_or_ge (i + B) M with h | h
      · exact ih (i + B) (some (storeOf (i + B))) (Nat.dvd_add hBi dvd_rfl) h
          (by omega) (by simp) herr
      · have : i + B = M := by omega
        rw [seedLoop_done M B _ fuel (i + B) (i + B) _ (by omega), this]
    · simp only [seedLoop, if_pos hiM, hfb] at herr
      simp at herr

/-- When the first failing batch is batch `b`, the loop commits batches
`0..b-1` (keys `[0, b*B)`), then returns batch `b`'s error with nothing
further attempted. -/
theorem seedLoop_fail (M B : Nat) (fail : Nat → Option String) (b : Nat)
    (e : String) (hB : 1 ≤ B) (hM : M ≤ 2 ^ 64) (hfb : fail b = some e)
    (hprev : ∀ j, j < b → fail j = none) (hbM : b * B < M) :
    ∀ fuel q db, q ≤ b → M ≤ q * B + fuel → db.getD [] = storeOf (q * B) →
    seedLoop M B fail fuel (q * B) (q * B) db
      = ⟨if q = b then db else some (storeOf (b * B)), b * B, some e⟩ := by
  intro fuel
  induction fuel with
  | zero =>
    intro q db hqb hMq _
    have : q * B ≤ b * B := Nat.mul_le_mul_right B hqb
    omega
  | succ fuel ih =>
    intro q db hqb hMq hdb
    have hqM : q * B < M := by
      have : q * B ≤ b * B := Nat.mul_le_mul_right B hqb
      omega
    have hdiv : q * B / B = q := by
      rw [Nat.mul_comm, Nat.mul_div_cancel_left q (by omega)]
    rcases Nat.lt_or_ge q b with hlt | hge
    · have hfq : fail q = none := hprev q hlt
      simp only [seedLoop, if_pos hqM, hdiv, hfq, hdb]
      have hq1 : (q + 1) * B = q * B + B := by ring
      have hle : (q + 1) * B ≤ b * B := Nat.mul_le_mul_right B hlt
      rw [putN_storeOf B (q * B) (by omega)]
      have hrec := ih (q + 1) (some (storeOf ((q + 1) * B))) hlt
        (by rw [hq1]; omega) (by simp)
      rw [hq1] at hrec
      rcases Nat.lt_or_ge (q + 1) b with h1 | h1
      · rw [hrec, if_neg (by omega : ¬ q + 1 = b), if_neg (by omega : ¬ q = b)]
      · have hq1b : q + 1 = b := by omega
        rw [hrec, if_pos hq1b, if_neg (by omega : ¬ q = b), ← hq1, hq1b]
    · have hq : q = b := by omega
      subst hq
      simp only [seedLoop, if_pos hqM, hdiv, hfb]
      simp

/-- The scan bound computed at `main.go` lines 136-137:
`binary.BigEndian.PutUint64(max, uint64(M * pct))`.  Go evaluates the
untyped-constant product exactly and the conversion to `uint64` truncates
toward zero, i.e. takes the floor. -/
def iterateMax (M : Nat) (pct : ℚ) : List Nat :=
  putUint64be (⌊(M : ℚ) * pct⌋).toNat

/-- One iteration of the scan body of `iterate` (`main.go` lines 146-153):
inside a read-only transaction, take the "root" bucket's cursor and walk
forward from the first key, counting keys while `bytes.Compare(k, max)`
is `-1` (strictly below the bound), stopping at the first key that is not.
When the bucket does not exist, `tx.Bucket` returns `nil` and the
`.Cursor()` call dereferences a nil pointer: the program panics, which the
embedding records as `none`. -/
def scanOnce (maxKey : List Nat) (db : DB) : Option Nat :=
  match db with
  | none => none
  | some bkt =>
    some ((bkt.takeWhile fun kv => bytesCmp kv.1 maxKey == Ordering.lt).length)

/-- Scan predicate satisfied by the records the `iterate` loop counts. -/
def belowMax (maxKey : List Nat) : List Nat × List Nat → Bool :=
  fun kv => bytesCmp kv.1 maxKey == Ordering.lt

theorem belowMax_key (m i : Nat) (hi : i < 2 ^ 64) (hm : m < 2 ^ 64)
    (v : List Nat) :
    belowMax (putUint64be m) (putUint64be i, v) = decide (i < m) := by
  rw [belowMax, putUint64be_cmp i m hi hm]
  rcases Nat.lt_trichotomy i m with h | h | h
  · rw [Nat.compare_eq_lt.mpr h, decide_eq_true h]
    decide
  · subst h
    rw [Nat.compare_eq_eq.mpr rfl, decide_eq_false (lt_irrefl i)]
    decide
  · rw [Nat.compare_eq_gt.mpr h, decide_eq_false (by omega)]
    decide

theorem takeWhile_scan (m : Nat) (hm : m < 2 ^ 64) :
    ∀ (n s : Nat), s + n ≤ 2 ^ 64 →
    (((List.range' s n).map fun i => (putUint64be i, zeroValue)).takeWhile
      (belowMax (putUint64be m))).length = min (m - s) n := by
  intro n
  induction n with
  | zero => intro s _; simp [List.range']
  | succ n ih =>
    intro s hs
    rw [List.range'_succ, List.map_cons, List.takeWhile_cons,
      belowMax_key m s (by omega) hm]
    rcases Nat.lt_or_ge s m with h | h
    · rw [if_pos (by simpa using h), List.length_cons, ih (s + 1) (by omega)]
      omega
    · rw [if_neg (by simpa using Nat.not_lt.mpr h)]
      simp
      omega

theorem countP_scan (m : Nat) (hm : m < 2 ^ 64) :
    ∀ (n s : Nat), s + n ≤ 2 ^ 64 →
    (((List.range' s n).map fun i => (putUint64be i, zeroValue)).countP
      (belowMax (putUint64be m))) = min (m - s) n := by
  intro n
  induction n with
  | zero => intro s _; simp [List.range']
  | succ n ih =>
    intro s hs
    rw [List.range'_succ, List.map_cons, List.countP_cons,
      belowMax_key m s (by omega) hm, ih (s + 1) (by omega)]
    rcases Nat.lt_or_ge s m with h | h
    · rw [if_pos (by simpa using h)]
      omega
    · rw [if_neg (by simpa using Nat.not_lt.mpr h)]
      omega

/-- On the store of keys `[0, M)`, the scan counts exactly `min m M` rows:
every key below `m`, stopping at the bound. -/
theorem scanOnce_storeOf (m M : Nat) (hm : m < 2 ^ 64) (hM : M ≤ 2 ^ 64) :
    scanOnce (putUint64be m) (some (storeOf M)) = some (min m M) := by
  rw [scanOnce, storeOf, List.range_eq_range']
  have := takeWhile_scan m hm M 0 (by omega)
  rw [show (fun kv : List Nat × List Nat =>
    bytesCmp kv.1 (putUint64be m) == Ordering.lt) = belowMax (putUint64be m) from rfl]
  rw [this]
  simp

theorem countP_storeOf (m M : Nat) (hm : m < 2 ^ 64) (hM : M ≤ 2 ^ 64) :
    (storeOf M).countP (belowMax (putUint64be m)) = min m M := by
  rw [storeOf, List.range_eq_range']
  rw [countP_scan m hm M 0 (by omega)]
  simp

/-- The fully seeded store, as produced by a failure-free run of the
generalised seeder on a fresh database. -/
theorem seedG_nofail (M B : Nat) (hB : 1 ≤ B) (hBM : B ∣ M) (hM0 : 0 < M)
    (hM : M ≤ 2 ^ 64) :
    seedG M B (fun _ => none) none = ⟨some (storeOf M), M, none⟩ := by
  have h := seedLoop_nofail M B hB hBM hM M 0 none (Nat.dvd_zero B) hM0
    (by omega) (by simp [storeOf])
  rw [seedG, h]
  simp

theorem seed_nofail_eq : seed (fun _ => none) none
    = ⟨some (storeOf itemCount), itemCount, none⟩ := by
  rw [seed, seedG_nofail]
  · exact Nat.one_le_iff_ne_zero.mpr (by norm_num [batchSize])
  · exact ⟨400, by norm_num [itemCount, batchSize]⟩
  · norm_num [itemCount]
  · norm_num [itemCount]

/-- The scan bound at the program's constants is the key for index
`800000 = floor(4000000 * 0.2)`. -/
theorem iterateMax_const : iterateMax itemCount iteratePct = putUint64be 800000 := by
  rw [iterateMax]
  have h : (itemCount : ℚ) * iteratePct = ((800000 : ℕ) : ℚ) := by
    norm_num [itemCount, iteratePct]
  rw [h, Int.floor_natCast, Int.toNat_natCast]

theorem iterateMax_scenario : iterateMax 100 (1 / 2 : ℚ) = putUint64be 50 := by
  rw [iterateMax]
  have h : ((100 : Nat) : ℚ) * (1 / 2 : ℚ) = ((50 : ℕ) : ℚ) := by norm_num
  rw [h, Int.floor_natCast, Int.toNat_natCast]

/-- Result a scan worker reports when its loop exits (`main.go` line 166):
accumulated duration `d`, iteration count `n`, and the printed average
`d / n` (integer division of `time.Duration` values). -/
structure IterOut where
  d : Nat
  n : Nat
  avg : Nat
  deriving DecidableEq, Repr

/-- The timing skeleton of the `iterate` loop (`main.go` lines 139-164),
with real-time durations abstracted as an arbitrary sequence
`dur : Nat → Nat` of per-iteration durations (nanoseconds).  Each pass
first runs a full iteration (accumulating `d += dur i; n++`), and only
then polls the stop channel; `stopLeft` counts how many polls find no
token before one is available (`stopLeft = 0` means the token is consumed
at the first poll, after one complete iteration). -/
def iterateLoop (dur : Nat → Nat) : Nat → Nat → Nat → Nat → Nat × Nat
  | 0, i, d, n => (d + dur i, n + 1)
  | stopLeft + 1, i, d, n => iterateLoop dur stopLeft (i + 1) (d + dur i) (n + 1)

/-- A full worker run that is told to stop at poll number `k`: the totals
it accumulates and the average it reports on exit. -/
def iterateRun (dur : Nat → Nat) (k : Nat) : IterOut :=
  let r := iterateLoop dur k 0 0 0
  ⟨r.1, r.2, r.1 / r.2⟩

theorem iterateLoop_eq (dur : Nat → Nat) :
    ∀ k i d n, iterateLoop dur k i d n
      = (d + ∑ j ∈ Finset.range (k + 1), dur (i + j), n + (k + 1)) := by
  intro k
  induction k with
  | zero => intro i d n; simp [iterateLoop]
  | succ k ih =>
    intro i d n
    rw [iterateLoop, ih, Finset.sum_range_succ' (fun j => dur (i + j)) (k + 1)]
    have hshift : ∀ j, i + (j + 1) = i + 1 + j := by omega
    have : ∑ j ∈ Finset.range (k + 1), dur (i + (j + 1))
        = ∑ j ∈ Finset.range (k + 1), dur (i + 1 + j) :=
      Finset.sum_congr rfl fun j _ => congrArg dur (hshift j)
    rw [this]
    refine Prod.ext ?_ ?_
    · simp
      omega
    · simp
      omega

/-- Outcome of `dbcopy` plus the orchestrator's handling of its error
(`main.go` lines 170-181 and 74-77). -/
structure CopyOut where
  err : Option String
  roTx : Nat
  streamed : Bucket
  reported : Bool
  deriving DecidableEq, Repr

/-- `dbcopy` (`main.go` lines 170-181): one `db.View` call opens a single
read-only transaction; `tx.Copy(ioutil.Discard)` streams the whole
logical contents of the store through it into a discard sink.
`copyFail` is the error (if any) the engine reports for the copy; on
failure `dbcopy` returns that error unchanged before printing the
duration line, on success it prints the duration and returns `nil`. -/
def dbcopy (copyFail : Option String) (db : DB) : CopyOut :=
  match copyFail with
  | some e => ⟨some e, 1, [], false⟩
  | none => ⟨none, 1, db.getD [], true⟩

/-- The orchestrator's treatment of `dbcopy`'s result (`main.go` lines
75-77): a non-nil error is passed to `log.Fatal`, which terminates the
process with exit status 1; otherwise the run continues (status 0). -/
def copyPhaseCode (copyFail : Option String) (db : DB) : Nat :=
  match (dbcopy copyFail db).err with
  | some _ => 1
  | none => 0

/-- Outcome of the orchestrator's init phase. -/
structure InitOut where
  db : DB
  seeded : Bool
  err : Option String
  deriving DecidableEq, Repr

/-- The init phase of `main` (`main.go` lines 34-54): `os.Stat` decides
whether the store file is absent (`isNew`); `bolt.Open` then creates or
opens it; `seed` runs exactly when the file was absent.  `db` is the
root-bucket state of the opened file (`none` for a fresh file). -/
def runInit (fileAbsent : Bool) (fail : Nat → Option String) (db : DB) : InitOut :=
  if fileAbsent then
    let r := seed fail db
    ⟨r.db, true, r.err⟩
  else
    ⟨db, false, none⟩

/-- Status of one scan-worker goroutine: not yet spawned; inside a scan
iteration; at the end-of-iteration `select` poll; out of the loop but the
final average not yet printed; final average printed. -/
inductive WStatus
  | notStarted
  | running
  | atCheck
  | finished
  | reported
  deriving DecidableEq, Repr, Fintype

/-- Interleaving state of `main` (`main.go` lines 56-82) and its three
scan workers.  `pc` is main's position:
0 `go iterate` (warmup) / 1 about to send / 2 blocked in `c <- true` /
3 `go iterate` (isolated) / 4 `time.Sleep(2s)` / 5 about to send /
6 blocked in `c <- true` / 7 `go iterate` (copy phase) / 8 `dbcopy` /
9 about to send / 10 blocked in `c <- true` / 11 `time.Sleep(100ms)` /
12 exited.  A send pc is split into "about to send" and "blocked in
send" so that a worker's `select` takes the receive exactly when a
sender is already committed to the channel, and `default` otherwise. -/
structure BState where
  pc : Fin 13
  w1 : WStatus
  w2 : WStatus
  w3 : WStatus
  deriving DecidableEq, Repr, Fintype

/-- Main is blocked in a channel send: a token is available to any worker
whose `select` runs now. -/
def offering (s : BState) : Bool :=
  s.pc.val = 2 || s.pc.val = 6 || s.pc.val = 10

/-- Moves of the main goroutine (spawns, sleeps, the `dbcopy` call, and
arriving at a send; completing a send is the joint rendezvous move in the
worker's transitions). -/
def mainNext (s : BState) : List BState :=
  match s.pc.val with
  | 0 => [{ s with pc := 1, w1 := .running }]
  | 1 => [{ s with pc := 2 }]
  | 3 => [{ s with pc := 4, w2 := .running }]
  | 4 => [{ s with pc := 5 }]
  | 5 => [{ s with pc := 6 }]
  | 7 => [{ s with pc := 8, w3 := .running }]
  | 8 => [{ s with pc := 9 }]
  | 9 => [{ s with pc := 10 }]
  | 11 => [{ s with pc := 12 }]
  | _ => []

/-- Moves of worker 1 (`iterate`, `main.go` lines 135-167): finish the
current iteration; at the poll, receive the token iff a sender is blocked
(Go's `select` must take a ready case and may take `default` only when no
case is ready), which advances main past its send and breaks the loop;
otherwise start the next iteration; after the loop, print the average. -/
def w1Next (s : BState) : List BState :=
  match s.w1 with
  | .running => [{ s with w1 := .atCheck }]
  | .atCheck =>
    if offering s then [{ s with pc := s.pc + 1, w1 := .finished }]
    else [{ s with w1 := .running }]
  | .finished => [{ s with w1 := .reported }]
  | _ => []

/-- Moves of worker 2; identical to worker 1's. -/
def w2Next (s : BState) : List BState :=
  match s.w2 with
  | .running => [{ s with w2 := .atCheck }]
  | .atCheck =>
    if offering s then [{ s with pc := s.pc + 1, w2 := .finished }]
    else [{ s with w2 := .running }]
  | .finished => [{ s with w2 := .reported }]
  | _ => []

/-- Moves of worker 3; identical to worker 1's. -/
def w3Next (s : BState) : List BState :=
  match s.w3 with
  | .running => [{ s with w3 := .atCheck }]
  | .atCheck =>
    if offering s then [{ s with pc := s.pc + 1, w3 := .finished }]
    else [{ s with w3 := .running }]
  | .finished => [{ s with w3 := .reported }]
  | _ => []

/-- All interleaving successors of a state. -/
def next (s : BState) : List BState :=
  mainNext s ++ w1Next s ++ w2Next s ++ w3Next s

/-- One scheduler step. -/
def Step (s t : BState) : Prop := t ∈ next s

instance (s t : BState) : Decidable (Step s t) := by
  unfold Step
  infer_instance

/-- Initial state: main at the warmup spawn, no worker started. -/
def initState : BState := ⟨0, .notStarted, .notStarted, .notStarted⟩

/-- States the program can reach from the start. -/
def Reach (s : BState) : Prop := Relation.ReflTransGen Step initState s

/-- A worker currently participating in the scan loop (and hence polling
the shared channel at each iteration boundary). -/
def inLoop (w : WStatus) : Bool :=
  decide (w = .running) || decide (w = .atCheck)

def wDone (w : WStatus) : Bool :=
  decide (w = .finished) || decide (w = .reported)

/-- Inductive invariant of the orchestration: which workers can be live
at each main pc. -/
def inv (s : BState) : Bool :=
  match s.pc.val with
  | 0 => decide (s.w1 = .notStarted) && decide (s.w2 = .notStarted)
      && decide (s.w3 = .notStarted)
  | 1 => inLoop s.w1 && decide (s.w2 = .notStarted) && decide (s.w3 = .notStarted)
  | 2 => inLoop s.w1 && decide (s.w2 = .notStarted) && decide (s.w3 = .notStarted)
  | 3 => wDone s.w1 && decide (s.w2 = .notStarted) && decide (s.w3 = .notStarted)
  | 4 => wDone s.w1 && inLoop s.w2 && decide (s.w3 = .notStarted)
  | 5 => wDone s.w1 && inLoop s.w2 && decide (s.w3 = .notStarted)
  | 6 => wDone s.w1 && inLoop s.w2 && decide (s.w3 = .notStarted)
  | 7 => wDone s.w1 && wDone s.w2 && decide (s.w3 = .notStarted)
  | 8 => wDone s.w1 && wDone s.w2 && inLoop s.w3
  | 9 => wDone s.w1 && wDone s.w2 && inLoop s.w3
  | 10 => wDone s.w1 && wDone s.w2 && inLoop s.w3
  | 11 => wDone s.w1 && wDone s.w2 && wDone s.w3
  | 12 => wDone s.w1 && wDone s.w2 && wDone s.w3
  | _ => false

theorem inv_init : inv initState = true := by decide

set_option maxRecDepth 4000 in
theorem inv_step : ∀ s : BState, inv s = true → (next s).all inv = true := by
  intro s
  obtain ⟨pc, w1, w2, w3⟩ := s
  fin_cases pc <;> cases w1 <;> cases w2 <;> cases w3 <;> decide

theorem reach_inv (s : BState) (h : Reach s) : inv s = true := by
  induction h with
  | refl => exact inv_init
  | tail _ hstep ih =>
    exact List.all_eq_true.mp (inv_step _ ih) _ hstep

/-- Per-state check of the worker's stop-signal discipline: a worker
inside an iteration can only finish that iteration (reach the poll); at
the poll it exits the loop exactly when a sender is blocked on the
channel and otherwise immediately begins the next iteration (it never
blocks); and no transition takes a worker out of its loop except the
rendezvous at the poll. -/
def nonBlockingCheck (s : BState) : Bool :=
  (if s.w1 = WStatus.running then
    decide (w1Next s = [{ s with w1 := WStatus.atCheck }]) else true) &&
  (if s.w1 = WStatus.atCheck then
    (if offering s then
      decide (w1Next s = [{ s with pc := s.pc + 1, w1 := WStatus.finished }])
    else decide (w1Next s = [{ s with w1 := WStatus.running }])) else true) &&
  ((next s).all fun t => !(decide (t.w1 = WStatus.finished))
    || decide (s.w1 = WStatus.finished)
    || (decide (s.w1 = WStatus.atCheck) && offering s)) &&
  (if s.w2 = WStatus.running then
    decide (w2Next s = [{ s with w2 := WStatus.atCheck }]) else true) &&
  (if s.w2 = WStatus.atCheck then
    (if offering s then
      decide (w2Next s = [{ s with pc := s.pc + 1, w2 := WStatus.finished }])
    else decide (w2Next s = [{ s with w2 := WStatus.running }])) else true) &&
  ((next s).all fun t => !(decide (t.w2 = WStatus.finished))
    || decide (s.w2 = WStatus.finished)
    || (decide (s.w2 = WStatus.atCheck) && offering s)) &&
  (if s.w3 = WStatus.running then
    decide (w3Next s = [{ s with w3 := WStatus.atCheck }]) else true) &&
  (if s.w3 = WStatus.atCheck then
    (if offering s then
      decide (w3Next s = [{ s with pc := s.pc + 1, w3 := WStatus.finished }])
    else decide (w3Next s = [{ s with w3 := WStatus.running }])) else true) &&
  ((next s).all fun t => !(decide (t.w3 = WStatus.finished))
    || decide (s.w3 = WStatus.finished)
    || (decide (s.w3 = WStatus.atCheck) && offering s))

/-- After `f` committed batches from batch index `q`, the store holds
exactly the keys `[0, (q+f)*B)`: running the batch loop with its fuel
limited to `f` iterations exposes the intermediate state after `f`
transactions. -/
theorem seedLoop_partial (M B : Nat) (hB : 1 ≤ B) (hM : M ≤ 2 ^ 64) :
    ∀ f q, (q + f) * B ≤ M →
    seedLoop M B (fun _ => none) f (q * B) (q * B) (some (storeOf (q * B)))
      = ⟨some (storeOf ((q + f) * B)), (q + f) * B, none⟩ := by
  intro f
  induction f with
  | zero => intro q h; simp [seedLoop]
  | succ f ih =>
    intro q h
    have hq1 : (q + 1) * B = q * B + B := by ring
    have hqM : q * B < M := by
      have h1 : (q + 1) * B ≤ (q + (f + 1)) * B := Nat.mul_le_mul_right B (by omega)
      omega
    have hdiv : q * B / B = q := by
      rw [Nat.mul_comm, Nat.mul_div_cancel_left q (by omega)]
    simp only [seedLoop, if_pos hqM, hdiv, Option.getD_some]
    have hle : (q + 1) * B ≤ M := by
      have : (q + 1) * B ≤ (q + (f + 1)) * B := Nat.mul_le_mul_right B (by omega)
      omega
    rw [putN_storeOf B (q * B) (by omega)]
    rw [show q * B + B = (q + 1) * B from hq1.symm]
    have harg : (q + 1 + f) * B ≤ M := by
      have : q + 1 + f = q + (f + 1) := by omega
      rw [this]; exact h
    have hrec := ih (q + 1) harg
    rw [hrec]
    have : q + 1 + f = q + (f + 1) := by omega
    rw [this]

/-- A successful run of `seed` on a fresh database is exactly the
failure-free run: full store, count `itemCount`, no error. -/
theorem seed_ok_eq (fail : Nat → Option String)
    (h : (seed fail none).err = none) :
    seed fail none = ⟨some (storeOf itemCount), itemCount, none⟩ := by
  have hB : 1 ≤ batchSize := by norm_num [batchSize]
  have hBM : batchSize ∣ itemCount := ⟨400, by norm_num [itemCount, batchSize]⟩
  have hM : itemCount ≤ 2 ^ 64 := by norm_num [itemCount]
  have h0 : (0 : Nat) < itemCount := by norm_num [itemCount]
  rcases he : (seedLoop itemCount batchSize fail itemCount 0 0 none).err with _ | e
  · have hr := seedLoop_ok itemCount batchSize fail hB hBM hM itemCount 0 none
      (Nat.dvd_zero batchSize) h0 (by omega) (by simp [storeOf]) he
    rw [seed, seedG, hr]
    simp
  · rw [seed, seedG] at h
    simp only [he] at h
    simp at h

/-- The interleaving point exhibiting the hand-off asynchrony: the
warmup worker has received its stop token and left the loop, main has
already spawned the second worker, yet the warmup worker's average is
still unreported. -/
def overlapState : BState := ⟨4, .finished, .running, .notStarted⟩

theorem reach_overlapState : Reach overlapState := by
  have h1 : Relation.ReflTransGen Step initState
      ⟨1, .running, .notStarted, .notStarted⟩ :=
    Relation.ReflTransGen.tail Relation.ReflTransGen.refl (by decide)
  have h2 : Relation.ReflTransGen Step initState
      ⟨2, .running, .notStarted, .notStarted⟩ :=
    Relation.ReflTransGen.tail h1 (by decide)
  have h3 : Relation.ReflTransGen Step initState
      ⟨2, .atCheck, .notStarted, .notStarted⟩ :=
    Relation.ReflTransGen.tail h2 (by decide)
  have h4 : Relation.ReflTransGen Step initState
      ⟨3, .finished, .notStarted, .notStarted⟩ :=
    Relation.ReflTransGen.tail h3 (by decide)
  exact Relation.ReflTransGen.tail h4 (by decide)

/-- C1: every successful run of the seeder on an empty store leaves the
dataset container holding exactly `itemCount` records whose keys are the
8-byte big-endian encodings of the contiguous range `[0, itemCount)` with
fixed 1024-byte payloads; insertion proceeds in batches of `batchSize`
records per transaction, batch `i` covering the contiguous range starting
at `i*batchSize`. -/
theorem seed_completeness (fail : Nat → Option String)
    (h : (seed fail none).err = none) :
    (seed fail none).db
      = some ((List.range itemCount).map fun i =>
          (putUint64be i, List.replicate valueSize 0))
    ∧ (seed fail none).count = itemCount
    ∧ (storeOf itemCount).length = itemCount
    ∧ (∀ q f, (q + f) * batchSize ≤ itemCount →
        seedLoop itemCount batchSize (fun _ => none) f (q * batchSize)
          (q * batchSize) (some (storeOf (q * batchSize)))
          = ⟨some (storeOf ((q + f) * batchSize)), (q + f) * batchSize, none⟩)
    ∧ (∀ c, c + batchSize ≤ 2 ^ 64 →
        putN batchSize c (storeOf c) = (storeOf (c + batchSize), c + batchSize)) := by
  have heq := seed_ok_eq fail h
  have hB : 1 ≤ batchSize := by norm_num [batchSize]
  have hM : itemCount ≤ 2 ^ 64 := by norm_num [itemCount]
  refine ⟨?_, ?_, ?_, ?_, ?_⟩
  · rw [heq]
    simp [storeOf, zeroValue]
  · rw [heq]
  · simp [storeOf]
  · intro q f hqf
    exact seedLoop_partial itemCount batchSize hB hM f q hqf
  · intro c hc
    exact putN_storeOf batchSize c hc

/-- Witness for C1 at the failure-free oracle. -/
theorem seed_completeness_witness :
    (seed (fun _ => none) none).db
      = some ((List.range itemCount).map fun i =>
          (putUint64be i, List.replicate valueSize 0)) :=
  (seed_completeness (fun _ => none)
    (by rw [seed_nofail_eq])).1

/-- C2: the scan count over a fully seeded, unmodified dataset is
deterministic and equals the number of keys strictly below the byte
encoding of `floor(itemCount * iteratePct)`: 800000 at the program's
constants, and 50 in the scenario `itemCount = 100`, `iteratePct = 0.5`. -/
theorem scan_boundedness :
    (seedG itemCount batchSize (fun _ => none) none).db = some (storeOf itemCount)
    ∧ iterateMax itemCount iteratePct = putUint64be 800000
    ∧ scanOnce (iterateMax itemCount iteratePct) (some (storeOf itemCount))
        = some 800000
    ∧ scanOnce (iterateMax itemCount iteratePct) (some (storeOf itemCount))
        = some ((storeOf itemCount).countP
            (belowMax (iterateMax itemCount iteratePct)))
    ∧ (seedG 100 10 (fun _ => none) none).db = some (storeOf 100)
    ∧ scanOnce (iterateMax 100 (0.5 : ℚ)) (some (storeOf 100)) = some 50 := by
  have hM : itemCount ≤ 2 ^ 64 := by norm_num [itemCount]
  have h800 : (800000 : Nat) < 2 ^ 64 := by norm_num
  have hscan : scanOnce (iterateMax itemCount iteratePct) (some (storeOf itemCount))
      = some 800000 := by
    rw [iterateMax_const, scanOnce_storeOf 800000 itemCount h800 hM]
    norm_num [itemCount]
  refine ⟨?_, iterateMax_const, hscan, ?_, ?_, ?_⟩
  · rw [seedG_nofail itemCount batchSize (by norm_num [batchSize])
      ⟨400, by norm_num [itemCount, batchSize]⟩ (by norm_num [itemCount]) hM]
  · rw [hscan, iterateMax_const, countP_storeOf 800000 itemCount h800 hM]
    norm_num [itemCount]
  · rw [seedG_nofail 100 10 (by norm_num) ⟨10, by norm_num⟩ (by norm_num)
      (by norm_num)]
  · have h05 : iterateMax 100 (0.5 : ℚ) = putUint64be 50 := by
      rw [iterateMax]
      have h : ((100 : Nat) : ℚ) * (0.5 : ℚ) = ((50 : ℕ) : ℚ) := by norm_num
      rw [h, Int.floor_natCast, Int.toNat_natCast]
    rw [h05, scanOnce_storeOf 50 100 (by norm_num) (by norm_num)]
    norm_num

/-- C3 counterexample: the orchestration does not wait for the stopped
worker's final report — there is a reachable interleaving in which the
second scan worker has already started while the first has not yet
reported its average, refuting the claim as stated. -/
theorem phase_overlap_counterexample :
    ¬ (∀ s : BState, Reach s →
        (s.w2 ≠ WStatus.notStarted → s.w1 = WStatus.reported)
        ∧ (s.w3 ≠ WStatus.notStarted → s.w2 = WStatus.reported)) := by
  intro hclaim
  have h := (hclaim overlapState reach_overlapState).1 (by decide)
  exact absurd h (by decide)

/-- C3 (amended): the orchestrator never starts a new scan worker until
the previous worker has received the stop token and left its scan loop —
hence no two workers ever read the signal channel simultaneously — but it
may start the next worker before the previous one has reported its
average. -/
theorem phase_handoff (s : BState) (h : Reach s) :
    (s.w2 ≠ WStatus.notStarted → wDone s.w1 = true)
    ∧ (s.w3 ≠ WStatus.notStarted → wDone s.w2 = true)
    ∧ (inLoop s.w1 && inLoop s.w2) = false
    ∧ (inLoop s.w1 && inLoop s.w3) = false
    ∧ (inLoop s.w2 && inLoop s.w3) = false := by
  have hinv := reach_inv s h
  revert hinv
  obtain ⟨pc, w1, w2, w3⟩ := s
  fin_cases pc <;> cases w1 <;> cases w2 <;> cases w3 <;> decide

/-- Witness for the amended C3 at a concrete reachable state. -/
theorem phase_handoff_witness :
    (overlapState.w2 ≠ WStatus.notStarted → wDone overlapState.w1 = true)
    ∧ (overlapState.w3 ≠ WStatus.notStarted → wDone overlapState.w2 = true)
    ∧ (inLoop overlapState.w1 && inLoop overlapState.w2) = false
    ∧ (inLoop overlapState.w1 && inLoop overlapState.w3) = false
    ∧ (inLoop overlapState.w2 && inLoop overlapState.w3) = false :=
  phase_handoff overlapState reach_overlapState

/-- C4: a worker's stop-signal check is non-blocking and happens only at
the end of a completed iteration: with a token available the worker's
only move at the poll is to exit the loop (after the completed
iteration), with no token it immediately starts the next iteration, a
worker mid-iteration can only finish that iteration, and no transition
ends a worker's loop except the rendezvous at the poll. -/
theorem stop_check_nonblocking : ∀ s : BState, nonBlockingCheck s = true := by
  intro s
  obtain ⟨pc, w1, w2, w3⟩ := s
  fin_cases pc <;> cases w1 <;> cases w2 <;> cases w3 <;> decide

/-- C5: a scan worker's loop runs its body once before the first poll,
so on exit the iteration count is `k + 1 ≥ 1` when the token arrives at
poll `k`; the reported average is the accumulated duration divided by
that count, and the accumulated duration is the sum of the per-iteration
durations. -/
theorem iterate_average (dur : Nat → Nat) (k : Nat) :
    (iterateRun dur k).n = k + 1
    ∧ 1 ≤ (iterateRun dur k).n
    ∧ (iterateRun dur k).avg = (iterateRun dur k).d / (iterateRun dur k).n
    ∧ (iterateRun dur k).d = ∑ j ∈ Finset.range ((iterateRun dur k).n), dur j := by
  have h := iterateLoop_eq dur k 0 0 0
  have hn : (iterateRun dur k).n = k + 1 := by
    rw [iterateRun]
    simp only [h, Nat.zero_add]
  refine ⟨hn, by omega, rfl, ?_⟩
  rw [hn, iterateRun]
  simp only [h, Nat.zero_add]

/-- C6: when batch `b` is the first seeding transaction to fail, the
seeder returns that batch's error immediately, attempts no further batch
and no retry, and every batch committed before the failure remains
committed: the store holds exactly the keys `[0, b*batchSize)`. -/
theorem seed_batch_failure (fail : Nat → Option String) (b : Nat) (e : String)
    (hfb : fail b = some e) (hprev : ∀ j, j < b → fail j = none)
    (hb : b * batchSize < itemCount) :
    (seed fail none).err = some e
    ∧ (seed fail none).count = b * batchSize
    ∧ (seed fail none).db.getD [] = storeOf (b * batchSize) := by
  have hB : 1 ≤ batchSize := by norm_num [batchSize]
  have hM : itemCount ≤ 2 ^ 64 := by norm_num [itemCount]
  have hfail := seedLoop_fail itemCount batchSize fail b e hB hM hfb hprev hb
    itemCount 0 none (Nat.zero_le b) (by simp) (by simp [storeOf])
  rw [show (0 : Nat) * batchSize = 0 from by ring] at hfail
  have hseed : seed fail none
      = ⟨if 0 = b then none else some (storeOf (b * batchSize)),
          b * batchSize, some e⟩ := by
    rw [seed, seedG, hfail]
  rw [hseed]
  rcases Nat.eq_zero_or_pos b with rfl | hbpos
  · simp [storeOf]
  · rw [if_neg (by omega)]
    exact ⟨rfl, rfl, rfl⟩

/-- Witness for C6: the very first batch transaction fails. -/
theorem seed_batch_failure_witness :
    ((fun j => if j = 0 then some "boom" else none) 0
        = (some "boom" : Option String))
    ∧ (seed (fun j => if j = 0 then some "boom" else none) none).err
        = some "boom" :=
  ⟨rfl,
    (seed_batch_failure (fun j => if j = 0 then some "boom" else none) 0 "boom"
      rfl (fun j hj => absurd hj (Nat.not_lt_zero j))
      (by norm_num [batchSize, itemCount])).1⟩

/-- C7: the seeder runs exactly when the store file was absent; a second
invocation against the existing store skips seeding and leaves the
record count unchanged at `itemCount`. -/
theorem seeding_gated_on_absence :
    (∀ (f : Bool) (fail : Nat → Option String) (db : DB),
      (runInit f fail db).seeded = f)
    ∧ (runInit true (fun _ => none) none).db = some (storeOf itemCount)
    ∧ (∀ fail2 : Nat → Option String,
        runInit false fail2 (some (storeOf itemCount))
          = ⟨some (storeOf itemCount), false, none⟩)
    ∧ (storeOf itemCount).length = itemCount := by
  refine ⟨?_, ?_, fun _ => rfl, ?_⟩
  · intro f fail db
    cases f <;> rfl
  · simp [runInit, seed_nofail_eq]
  · simp [storeOf]

/-- C8: the exporter opens exactly one read-only transaction, streams the
entire logical contents of the store through it to a discard sink, and
reports the duration only on success; on failure the error propagates
unchanged to main, no duration is reported, and the run exits
non-zero. -/
theorem dbcopy_contract (db : DB) (e : String) :
    dbcopy none db = ⟨none, 1, db.getD [], true⟩
    ∧ dbcopy (some e) db = ⟨some e, 1, [], false⟩
    ∧ copyPhaseCode (some e) db = 1
    ∧ copyPhaseCode none db = 0 :=
  ⟨rfl, rfl, rfl, rfl⟩

/-- C9: when the "root" dataset container does not exist (an existing but
never-seeded store), a scan iteration hits a nil bucket handle when
taking the cursor and panics — modelled as `none` — rather than
returning an error or a zero count, while any existing bucket yields a
count. -/
theorem scan_missing_bucket (bkt : Bucket) :
    scanOnce (iterateMax itemCount iteratePct) none = none
    ∧ scanOnce (iterateMax itemCount iteratePct)
        ((runInit false (fun _ => none) none).db) = none
    ∧ (scanOnce (iterateMax itemCount iteratePct) (some bkt)).isSome = true :=
  ⟨rfl, rfl, rfl⟩

/-- C10: when every batch transaction succeeds the final count equals
`itemCount` (the counter gains exactly `batchSize` per batch and
`batchSize` divides `itemCount`), so the "invalid insert count" branch is
unreachable and `seed` returns an error only when a batch fails. -/
theorem seed_count_exact (fail : Nat → Option String) :
    ((∀ b, fail b = none)
      → seed fail none = ⟨some (storeOf itemCount), itemCount, none⟩)
    ∧ (∀ e, (seed fail none).err = some e → ∃ b, fail b ≠ none) := by
  have hall : (∀ b, fail b = none)
      → seed fail none = ⟨some (storeOf itemCount), itemCount, none⟩ := by
    intro hnone
    have hfun : fail = fun _ => none := funext hnone
    rw [hfun, seed, seedG_nofail itemCount batchSize (by norm_num [batchSize])
      ⟨400, by norm_num [itemCount, batchSize]⟩ (by norm_num [itemCount])
      (by norm_num [itemCount])]
  refine ⟨hall, ?_⟩
  intro e he
  by_contra hc
  push_neg at hc
  rw [hall hc] at he
  exact absurd he (by simp)

/-- Witness for C10 at the failure-free oracle. -/
theorem seed_count_exact_witness :
    seed (fun _ => none) none = ⟨some (storeOf itemCount), itemCount, none⟩ :=
  (seed_count_exact (fun _ => none)).1 fun _ => rfl

end CopyBench
